import Mathlib

/-!
Shallow embedding of `src/generator.py` (class `FaultTreeDatasetGenerator`)
from the repository `GNN_Fault_Tree_Solver`.

Randomness is modelled by an explicit oracle: two infinite streams of raw
entropy, one of naturals (consumed by `random.randint` and `random.choice`)
and one of rationals (consumed by `random.random` / `random.uniform(0,1)`,
whose contract is a value in `[0,1)`).  Stream cursors (`ik`, `rk`) are part
of the generator state and advance exactly when the Python code consumes a
draw, in the same order as the Python evaluation order.

Machine floats are modelled as rationals; Python `int` as `Int`/`Nat`.
Python exceptions (`ValueError` from `random.randint` on an empty range,
`ZeroDivisionError`) are modelled by an error value that aborts the build,
carrying the state at the moment the exception is raised.

Each `Node` record carries a ghost field `depth`: the recursion depth at
which the node was created (root = 0).  It is bookkeeping only; no branch
of any embedded function reads it.
-/

namespace FaultTree

/-- A graph node with the attributes `create_node` stores:
`node_type` = 0/1/2 (top / intermediate / leaf), `gate_type` = 0/1/2
(dummy / and / or) as documented in `create_node`'s docstring,
`node_probability` (−1 sentinel for non-leaves), plus the ghost `depth`. -/
structure Node where
  id : ℕ
  node_type : ℕ
  gate_type : ℕ
  node_probability : ℚ
  depth : ℕ
deriving DecidableEq, Repr

/-- Generator configuration (`__init__` parameters the core algorithm reads).
`max_depth` is an integer so that negative configurations are expressible. -/
structure Config where
  max_num_children : ℕ
  min_children : ℕ
  max_depth : ℤ
deriving DecidableEq, Repr

/-- The entropy source: `ints i` is the raw draw backing the `i`-th call to
`random.randint`/`random.choice`, `reals i` the value returned by the `i`-th
call to `random.random`/`random.uniform(0,1)` (contract: in `[0,1)`). -/
structure Oracle where
  ints : ℕ → ℕ
  reals : ℕ → ℚ

/-- The oracle respects the contract of Python's `random.random`/
`random.uniform(0, 1)`: every real draw lies in `[0, 1)` (`0.0` is a
possible return value, `1.0` is not). -/
def Oracle.valid (o : Oracle) : Prop :=
  ∀ i, 0 ≤ o.reals i ∧ o.reals i < 1

/-- Mutable generator state: the run-wide node counter, the graph under
construction (`nodes` in creation order, `edges` as (child, parent) pairs in
creation order), and the two oracle cursors. -/
structure GenState where
  node_counter : ℕ
  nodes : List Node
  edges : List (ℕ × ℕ)
  ik : ℕ
  rk : ℕ
deriving DecidableEq, Repr

/-- Errors the Python code can raise while building one tree:
`emptyRange` is the `ValueError` from `random.randint(lo, hi)` with
`lo > hi`; `divByZero` is `ZeroDivisionError` from
`current_depth / self.max_depth`. -/
inductive GenError where
  | emptyRange
  | divByZero
deriving DecidableEq, Repr

/-- `random.randint(lo, hi)` for `lo ≤ hi`: the raw draw is reduced into the
inclusive range `[lo, hi]`.  (The `lo > hi` case raises in Python and is
guarded at the call site.) -/
def randint (lo hi raw : ℕ) : ℕ :=
  lo + raw % (hi + 1 - lo)

/-- `random.choice([1, 2])`: picks index `raw % 2` of the two-element list. -/
def choice12 (raw : ℕ) : ℕ :=
  1 + raw % 2

/-- `biased_random_low_number` (generator.py:231): raises the uniform draw to
the fixed power 10. -/
def biased_random_low_number (u : ℚ) : ℚ :=
  u ^ 10

/-- Rational division that fails on a zero denominator, modelling Python's
`ZeroDivisionError`. -/
def qdiv (a b : ℚ) : Option ℚ :=
  if b = 0 then none else some (a / b)

/-- `create_node` (generator.py:60): decides the gate type (dummy 0 for a
leaf, otherwise `random.choice([1, 2])`) only when the caller passed no
gate type; samples the leaf probability via `biased_random_low_number`
(non-leaves keep the −1 default); assigns `node_counter + 1` as the id and
increments the counter.  `dep` is the ghost creation depth. -/
def create_node (o : Oracle) (node_type : ℕ) (gate_type : Option ℕ) (dep : ℕ)
    (s : GenState) : ℕ × GenState :=
  let gs : ℕ × GenState :=
    match gate_type with
    | some g => (g, s)
    | none =>
      if node_type = 2 then (0, s)
      else (choice12 (o.ints s.ik), { s with ik := s.ik + 1 })
  let ps : ℚ × GenState :=
    if node_type = 2 then
      (biased_random_low_number (o.reals gs.2.rk), { gs.2 with rk := gs.2.rk + 1 })
    else ((-1 : ℚ), gs.2)
  let node_id := ps.2.node_counter + 1
  (node_id,
    { ps.2 with
      nodes := ps.2.nodes ++ [⟨node_id, node_type, gs.1, ps.1, dep⟩]
      node_counter := ps.2.node_counter + 1 })

/-- `create_edge` (generator.py:80): records a directed child → parent edge. -/
def create_edge (child_node_id parent_node_id : ℕ) (s : GenState) : GenState :=
  { s with edges := s.edges ++ [(child_node_id, parent_node_id)] }

/-- The body of the `for _ in range(num_children)` loop of `create_tree`
(generator.py:95–110), one child: decide the child's type (forced LEAF on
the last level, otherwise `random.random() < 1 - current_depth/max_depth`
with the draw consumed before the division, as Python evaluates it), create
the child — faithful to the source, `create_node(node_type,
current_depth + 1)` passes the depth as the *positional `gate_type`
argument* — add the child → parent edge, and recurse (`rec`, instantiated
with `create_tree` at the next depth) only for intermediate children.
A previously raised error (`some e`) short-circuits the remaining
iterations, modelling the exception aborting the loop. -/
def child_step (o : Oracle) (C : Config) (parent_node_id current_depth : ℕ)
    (rec : ℕ → ℕ → GenState → GenState × Option GenError)
    (acc : GenState × Option GenError) (_i : ℕ) : GenState × Option GenError :=
  match acc with
  | (t, some e) => (t, some e)
  | (t, none) =>
    if (current_depth : ℤ) = C.max_depth - 1 then
      let ct := create_node o 2 (some (current_depth + 1)) (current_depth + 1) t
      (create_edge ct.1 parent_node_id ct.2, none)
    else
      let r := o.reals t.rk
      let t1 : GenState := { t with rk := t.rk + 1 }
      match qdiv (current_depth : ℚ) (C.max_depth : ℚ) with
      | none => (t1, some GenError.divByZero)
      | some q =>
        let node_type : ℕ := if r < 1 - q then 1 else 2
        let ct := create_node o node_type (some (current_depth + 1))
          (current_depth + 1) t1
        let t2 := create_edge ct.1 parent_node_id ct.2
        if node_type = 1 then rec ct.1 (current_depth + 1) t2
        else (t2, none)

/-- `create_tree` (generator.py:84).  The `fuel` argument is the structural
bound `(max_depth - current_depth)⁺`; the entry point passes
`max_depth.toNat`, and since every recursive call increments
`current_depth`, the fuel-0 clause is reached only when
`current_depth ≥ max_depth`, where the Python code returns as well.
`random.randint` raises `ValueError` (here: `emptyRange`) when
`min_children > max_num_children`. -/
def create_tree (o : Oracle) (C : Config) :
    ℕ → ℕ → ℕ → GenState → GenState × Option GenError
  | 0, _, _, s => (s, none)
  | fuel + 1, parent_node_id, current_depth, s =>
    if (current_depth : ℤ) ≥ C.max_depth then (s, none)
    else if C.min_children ≤ C.max_num_children then
      let num_children := randint C.min_children C.max_num_children (o.ints s.ik)
      let s1 : GenState := { s with ik := s.ik + 1 }
      (List.range num_children).foldl
        (child_step o C parent_node_id current_depth (create_tree o C fuel))
        (s1, none)
    else (s, some GenError.emptyRange)

/-- The state `reset` (generator.py:46) produces: an empty graph whose node
counter is the persisted `num_nodes` value; the oracle cursors carry over
(Python's `random` module is one global stream). -/
def reset (N ik rk : ℕ) : GenState :=
  ⟨N, [], [], ik, rk⟩

/-- `generate_subgraph` (generator.py:52), construction part: create the top
event node (`node_type = 0`, gate and probability defaulted), then build the
tree from it at depth 0. -/
def generate_subgraph (o : Oracle) (C : Config) (s : GenState) :
    GenState × Option GenError :=
  let ts := create_node o 0 none 0 s
  create_tree o C C.max_depth.toNat ts.1 0 ts.2

/-- Graph-level metadata fields written by `add_meta_data`
(generator.py:117), minus the creation date (an external clock). -/
structure MetaData where
  model_id : ℕ
  num_nodes : ℕ
  num_top_nodes : ℕ
  num_intermediate_nodes : ℕ
  num_leaf_nodes : ℕ
  num_and_gates : ℕ
  num_or_gates : ℕ
deriving DecidableEq, Repr

/-- One bucket of `count_nodes_and_gates` (generator.py:128): the tally of
nodes whose `node_type` equals `t` (the dict guard `if node_type in
node_counts` means only the keys 0, 1, 2 are ever consulted). -/
def count_node_type (nodes : List Node) (t : ℕ) : ℕ :=
  (nodes.filter (fun nd => nd.node_type = t)).length

/-- One bucket of `count_nodes_and_gates` for gates: the tally of nodes whose
`gate_type` equals `g` (values outside 0, 1, 2 fall out of the dict and are
counted nowhere, matching `if gate_type in gate_counts`). -/
def count_gate_type (nodes : List Node) (g : ℕ) : ℕ :=
  (nodes.filter (fun nd => nd.gate_type = g)).length

/-- `add_meta_data` (generator.py:117): note `num_nodes` is the run-wide
`node_counter`, and the and/or tallies read buckets 1 and 2. -/
def add_meta_data (model_counter : ℕ) (s : GenState) : MetaData :=
  { model_id := model_counter + 1
    num_nodes := s.node_counter
    num_top_nodes := count_node_type s.nodes 0
    num_intermediate_nodes := count_node_type s.nodes 1
    num_leaf_nodes := count_node_type s.nodes 2
    num_and_gates := count_gate_type s.nodes 1
    num_or_gates := count_gate_type s.nodes 2 }

/-- `self.graph.out_degree(v)`: number of recorded edges with source `v`. -/
def out_degree (s : GenState) (v : ℕ) : ℕ :=
  (s.edges.filter (fun e => e.1 = v)).length

/-- `self.graph.in_degree(v)`: number of recorded edges with target `v`. -/
def in_degree (s : GenState) (v : ℕ) : ℕ :=
  (s.edges.filter (fun e => e.2 = v)).length

/-- `calculate_in_and_out_degrees` (generator.py:242): attaches
`(in_degree, out_degree)` to every node; modelled as the derived list of
`(id, in_degree, out_degree)` triples in node order. -/
def calculate_in_and_out_degrees (s : GenState) : List (ℕ × ℕ × ℕ) :=
  s.nodes.map (fun nd => (nd.id, in_degree s nd.id, out_degree s nd.id))

/-- Python `str.split(sep)` for a one-character separator, on the character
list of the string: `"".split(';') = ['']`, and every occurrence of the
separator starts a new (possibly empty) piece. -/
def splitOnChar (sep : Char) : List Char → List (List Char)
  | [] => [[]]
  | c :: cs =>
    let r := splitOnChar sep cs
    if c = sep then [] :: r
    else
      match r with
      | [] => [[c]]
      | h :: t => (c :: h) :: t

/-- Python `str.strip()`: remove leading and trailing whitespace. -/
def stripChars (l : List Char) : List Char :=
  ((l.dropWhile Char.isWhitespace).reverse.dropWhile Char.isWhitespace).reverse

/-- A non-empty run of decimal digits, as Python `int` reads it.
(Underscore digit separators, accepted by CPython between digits, are not
modelled; none of the inputs considered here contains one.) -/
def digitsToNat (l : List Char) : Option ℕ :=
  if l ≠ [] ∧ l.all Char.isDigit then
    some (l.foldl (fun acc c => acc * 10 + (c.toNat - 48)) 0)
  else none

/-- Python `int(str)`: strip whitespace, optional single sign, then a
non-empty digit run; anything else raises `ValueError` (here: `none`). -/
def parsePyInt (l : List Char) : Option Int :=
  match stripChars l with
  | [] => none
  | c :: cs =>
    if c = '-' then (digitsToNat cs).map (fun n => -(n : ℤ))
    else if c = '+' then (digitsToNat cs).map (fun n => (n : ℤ))
    else (digitsToNat (c :: cs)).map (fun n => (n : ℤ))

/-- One iteration of the pair loop in `read_data_config` (generator.py:155):
`key, value = pair.split('=')` succeeds only with exactly two parts
(otherwise `ValueError`, caught and the pair skipped), then
`int(value.strip())` must parse (otherwise likewise skipped);
the key is stripped. -/
def parsePair (pair : List Char) : Option (List Char × Int) :=
  match splitOnChar '=' pair with
  | [k, v] =>
    match parsePyInt v with
    | some n => some (stripChars k, n)
    | none => none
  | _ => none

/-- `read_data_config` (generator.py:145) as a function of the counters
file's contents (`none` = file missing, i.e. `FileNotFoundError`): missing
file yields (and persists) the defaults; otherwise the stripped contents
are split on `';'` and each well-formed `key=value` pair is kept, malformed
pairs being skipped individually. -/
def read_data_config (contents : Option (List Char)) : List (List Char × Int) :=
  match contents with
  | none => [("num_models".data, 0), ("num_nodes".data, 0)]
  | some c => (splitOnChar ';' (stripChars c)).filterMap parsePair

/-- The `__init__` run loop (generator.py:41) restricted to what it persists:
each iteration resets to an empty graph seeded with the persisted node
counter, generates one tree, and (via `write_data_config` /
`read_data_config`) hands the advanced counter to the next iteration.
Returns the per-graph node lists and the finally persisted counter. -/
def run (o : Oracle) (C : Config) :
    ℕ → ℕ → ℕ → ℕ → List (List Node × Option GenError) × ℕ
  | 0, N, _, _ => ([], N)
  | g + 1, N, ik, rk =>
    let se := generate_subgraph o C (reset N ik rk)
    let rest := run o C g se.1.node_counter se.1.ik se.1.rk
    ((se.1.nodes, se.2) :: rest.1, rest.2)

/-! ## Invariants -/

/-- Facts true of every node a well-formed build has registered:
the ghost depth is bounded by the depth cap, a leaf's probability is the
sampler's output for some draw, and a non-leaf keeps the −1 sentinel. -/
def NodeOK (o : Oracle) (C : Config) (nd : Node) : Prop :=
  nd.depth ≤ C.max_depth.toNat ∧
  (nd.node_type = 2 → ∃ k, nd.node_probability = biased_random_low_number (o.reals k)) ∧
  (nd.node_type ≠ 2 → nd.node_probability = -1)

/-- Structural invariant of the graph under construction, for a build whose
persisted counter started at `N`:
ids are consecutive from `N+1` in creation order and track the counter;
the edge sources are exactly the non-root nodes in creation order (each
child is wired to its parent the moment it is created); edge targets are
existing nodes; the edge/node counts differ by the number of root nodes;
a root-typed node can only be the first one; and every node satisfies
`NodeOK`. -/
structure InvOK (o : Oracle) (C : Config) (N : ℕ)
    (counter : ℕ) (nodes : List Node) (edges : List (ℕ × ℕ)) : Prop where
  counter_eq : counter = N + nodes.length
  ids_eq : nodes.map Node.id = List.range' (N + 1) nodes.length
  srcs_eq : edges.map Prod.fst = (nodes.filter (fun nd => nd.node_type ≠ 0)).map Node.id
  tgt_mem : ∀ e ∈ edges, e.2 ∈ nodes.map Node.id
  edge_count : edges.length + count_node_type nodes 0 = nodes.length
  top_id : ∀ nd ∈ nodes, nd.node_type = 0 → nd.id = N + 1
  node_ok : ∀ nd ∈ nodes, NodeOK o C nd

/-- `InvOK` read off a `GenState` (the oracle cursors are unconstrained). -/
abbrev StateOK (o : Oracle) (C : Config) (N : ℕ) (s : GenState) : Prop :=
  InvOK o C N s.node_counter s.nodes s.edges

/-! ## Helper lemmas -/

theorem foldl_inv {α β : Type _} {P : β → Prop} (f : β → α → β)
    (h : ∀ b a, P b → P (f b a)) : ∀ (l : List α) (b : β), P b → P (l.foldl f b) := by
  intro l
  induction l with
  | nil => intro b hb; simpa using hb
  | cons x xs ih =>
    intro b hb
    rw [List.foldl_cons]
    exact ih _ (h b x hb)

theorem create_node_leaf (o : Oracle) (g dep : ℕ) (s : GenState) :
    create_node o 2 (some g) dep s =
      (s.node_counter + 1,
        { s with
          nodes := s.nodes ++ [⟨s.node_counter + 1, 2, g,
            biased_random_low_number (o.reals s.rk), dep⟩]
          node_counter := s.node_counter + 1
          rk := s.rk + 1 }) := rfl

theorem create_node_inter (o : Oracle) (g dep : ℕ) (s : GenState) :
    create_node o 1 (some g) dep s =
      (s.node_counter + 1,
        { s with
          nodes := s.nodes ++ [⟨s.node_counter + 1, 1, g, -1, dep⟩]
          node_counter := s.node_counter + 1 }) := rfl

theorem create_node_top (o : Oracle) (s : GenState) :
    create_node o 0 none 0 s =
      (s.node_counter + 1,
        { s with
          nodes := s.nodes ++ [⟨s.node_counter + 1, 0, choice12 (o.ints s.ik), -1, 0⟩]
          node_counter := s.node_counter + 1
          ik := s.ik + 1 }) := rfl

theorem count_node_type_append (l₁ l₂ : List Node) (t : ℕ) :
    count_node_type (l₁ ++ l₂) t = count_node_type l₁ t + count_node_type l₂ t := by
  simp [count_node_type, List.filter_append]

theorem count_node_type_singleton_ne (nd : Node) (t : ℕ) (h : nd.node_type ≠ t) :
    count_node_type [nd] t = 0 := by
  simp [count_node_type, List.filter, h]

/-- Adding a freshly numbered non-root node together with its edge to an
existing parent preserves the structural invariant. -/
theorem InvOK_addChild {o : Oracle} {C : Config} {N : ℕ}
    {counter : ℕ} {nodes : List Node} {edges : List (ℕ × ℕ)}
    (h : InvOK o C N counter nodes edges) (nd : Node) (parent : ℕ)
    (hid : nd.id = counter + 1) (hnt : nd.node_type ≠ 0)
    (hok : NodeOK o C nd) (hp : parent ∈ nodes.map Node.id) :
    InvOK o C N (counter + 1) (nodes ++ [nd]) (edges ++ [(nd.id, parent)]) := by
  obtain ⟨h1, h2, h3, h4, h5, h6, h7⟩ := h
  refine ⟨?_, ?_, ?_, ?_, ?_, ?_, ?_⟩
  · simp only [List.length_append, List.length_singleton]
    omega
  · have : (N + 1) + nodes.length = nd.id := by omega
    simp [h2, List.range'_concat, this]
  · simp [h3, List.filter_append, List.filter, hnt]
  · intro e he
    simp only [List.map_append, List.mem_append]
    rcases List.mem_append.1 he with he | he
    · exact Or.inl (h4 e he)
    · simp only [List.mem_singleton] at he
      subst he
      exact Or.inl hp
  · have : count_node_type (nodes ++ [nd]) 0 = count_node_type nodes 0 := by
      rw [count_node_type_append, count_node_type_singleton_ne nd 0 hnt]
      omega
    simp only [List.length_append, List.length_singleton, this]
    omega
  · intro x hx hx0
    rcases List.mem_append.1 hx with hx | hx
    · exact h6 x hx hx0
    · simp only [List.mem_singleton] at hx
      subst hx
      exact absurd hx0 hnt
  · intro x hx
    rcases List.mem_append.1 hx with hx | hx
    · exact h7 x hx
    · simp only [List.mem_singleton] at hx
      subst hx
      exact hok

/-- `child_step` only ever appends nodes, whatever `rec` does, provided
`rec` itself only appends. -/
theorem child_step_appends_nodes {o : Oracle} {C : Config} {parent d : ℕ}
    {rec : ℕ → ℕ → GenState → GenState × Option GenError}
    (hrec : ∀ p dd t, t.nodes <+: (rec p dd t).1.nodes) :
    ∀ (acc : GenState × Option GenError) (i : ℕ),
      acc.1.nodes <+: (child_step o C parent d rec acc i).1.nodes := by
  rintro ⟨t, e⟩ i
  match e with
  | some err => exact List.prefix_refl _
  | none =>
    simp only [child_step]
    by_cases hfl : (d : ℤ) = C.max_depth - 1
    · simp only [if_pos hfl, create_node_leaf, create_edge]
      exact ⟨_, rfl⟩
    · simp only [if_neg hfl]
      rcases hq : qdiv (d : ℚ) (C.max_depth : ℚ) with _ | q
      · exact List.prefix_refl _
      · simp only []
        by_cases hr : o.reals t.rk < 1 - q
        · simp only [if_pos hr, reduceIte, create_node_inter, create_edge]
          refine List.IsPrefix.trans ?_ (hrec _ _ _)
          exact ⟨_, rfl⟩
        · simp only [if_neg hr, create_node_leaf, create_edge]
          have : (2 : ℕ) ≠ 1 := by omega
          simp only [if_neg this]
          exact ⟨_, rfl⟩

/-- `create_tree` only ever appends nodes. -/
theorem create_tree_appends_nodes {o : Oracle} {C : Config} :
    ∀ (fuel parent d : ℕ) (s : GenState),
      s.nodes <+: (create_tree o C fuel parent d s).1.nodes := by
  intro fuel
  induction fuel with
  | zero => intro parent d s; exact List.prefix_refl _
  | succ k ih =>
    intro parent d s
    rw [create_tree]
    by_cases hd : (d : ℤ) ≥ C.max_depth
    · simp only [if_pos hd]
      exact List.prefix_refl _
    · simp only [if_neg hd]
      by_cases hmm : C.min_children ≤ C.max_num_children
      · simp only [if_pos hmm]
        have := foldl_inv (P := fun acc : GenState × Option GenError =>
            s.nodes <+: acc.1.nodes)
          (child_step o C parent d (create_tree o C k))
          (fun b a hb => hb.trans (child_step_appends_nodes (fun p dd t => ih p dd t) b a))
          (List.range (randint C.min_children C.max_num_children (o.ints s.ik)))
          ({ s with ik := s.ik + 1 }, none) (List.prefix_refl _)
        exact this
      · simp only [if_neg hmm]
        exact List.prefix_refl _

/-- `current_depth < max_depth` together with
`current_depth ≠ max_depth - 1` forces `max_depth ≥ 2`; this is the
arithmetic reason the division in `create_tree` is safe. -/
theorem division_guard_implies_two (d : ℕ) (D : ℤ)
    (h1 : (d : ℤ) < D) (h2 : (d : ℤ) ≠ D - 1) : 2 ≤ D := by
  omega

/-- The loop body never raises the division error when called below the
depth cap, as long as the recursion it is handed never does. -/
theorem child_step_no_div {o : Oracle} {C : Config} {parent d : ℕ}
    {rec : ℕ → ℕ → GenState → GenState × Option GenError}
    (hd : ¬ (d : ℤ) ≥ C.max_depth)
    (hrec : ∀ p dd t, (rec p dd t).2 ≠ some GenError.divByZero) :
    ∀ (acc : GenState × Option GenError) (i : ℕ),
      acc.2 ≠ some GenError.divByZero →
      (child_step o C parent d rec acc i).2 ≠ some GenError.divByZero := by
  rintro ⟨t, e⟩ i hacc
  match e with
  | some err => exact hacc
  | none =>
    simp only [child_step]
    by_cases hfl : (d : ℤ) = C.max_depth - 1
    · simp only [if_pos hfl, create_node_leaf, create_edge]
      simp
    · simp only [if_neg hfl]
      have h2 : (2 : ℤ) ≤ C.max_depth := division_guard_implies_two d C.max_depth
        (by omega) hfl
      have hz : (C.max_depth : ℚ) ≠ 0 := by
        exact_mod_cast (by omega : C.max_depth ≠ 0)
      simp only [qdiv, if_neg hz]
      by_cases hr : o.reals t.rk < 1 - (d : ℚ) / (C.max_depth : ℚ)
      · simp only [if_pos hr, reduceIte, create_node_inter, create_edge]
        exact hrec _ _ _
      · simp only [if_neg hr, create_node_leaf, create_edge]
        have : (2 : ℕ) ≠ 1 := by omega
        simp only [if_neg this]
        simp

/-- `create_tree` never raises the division error, whatever the
configuration (including `max_depth = 0` and `max_depth = 1`). -/
theorem create_tree_no_div {o : Oracle} {C : Config} :
    ∀ (fuel parent d : ℕ) (s : GenState),
      (create_tree o C fuel parent d s).2 ≠ some GenError.divByZero := by
  intro fuel
  induction fuel with
  | zero => intro parent d s; simp [create_tree]
  | succ k ih =>
    intro parent d s
    rw [create_tree]
    by_cases hd : (d : ℤ) ≥ C.max_depth
    · simp [if_pos hd]
    · simp only [if_neg hd]
      by_cases hmm : C.min_children ≤ C.max_num_children
      · simp only [if_pos hmm]
        exact foldl_inv (P := fun acc : GenState × Option GenError =>
            acc.2 ≠ some GenError.divByZero)
          (child_step o C parent d (create_tree o C k))
          (fun b a hb => child_step_no_div hd (fun p dd t => ih p dd t) b a hb)
          (List.range (randint C.min_children C.max_num_children (o.ints s.ik)))
          ({ s with ik := s.ik + 1 }, none) (by simp)
      · simp only [if_neg hmm]
        simp

/-- One loop iteration below the depth cap preserves the structural
invariant, keeps the top-node count, only appends nodes, keeps the parent
registered, and raises no error — provided the recursion it is handed does
the same at depth `d + 1`. -/
theorem child_step_inv {o : Oracle} {C : Config} {N parent d : ℕ}
    {rec : ℕ → ℕ → GenState → GenState × Option GenError}
    (hd : ¬ (d : ℤ) ≥ C.max_depth)
    (hrec : ∀ p t, StateOK o C N t → p ∈ t.nodes.map Node.id →
      StateOK o C N (rec p (d + 1) t).1 ∧
      count_node_type (rec p (d + 1) t).1.nodes 0 = count_node_type t.nodes 0 ∧
      t.nodes <+: (rec p (d + 1) t).1.nodes ∧
      (rec p (d + 1) t).2 = none) :
    ∀ (t : GenState) (i : ℕ), StateOK o C N t → parent ∈ t.nodes.map Node.id →
      StateOK o C N (child_step o C parent d rec (t, none) i).1 ∧
      count_node_type (child_step o C parent d rec (t, none) i).1.nodes 0
        = count_node_type t.nodes 0 ∧
      t.nodes <+: (child_step o C parent d rec (t, none) i).1.nodes ∧
      parent ∈ (child_step o C parent d rec (t, none) i).1.nodes.map Node.id ∧
      (child_step o C parent d rec (t, none) i).2 = none := by
  intro t i ht hp
  simp only [child_step]
  by_cases hfl : (d : ℤ) = C.max_depth - 1
  · simp only [if_pos hfl, create_node_leaf, create_edge]
    have hok : NodeOK o C ⟨t.node_counter + 1, 2, d + 1,
        biased_random_low_number (o.reals t.rk), d + 1⟩ := by
      refine ⟨?_, fun _ => ⟨t.rk, rfl⟩, fun h => absurd rfl h⟩
      show d + 1 ≤ C.max_depth.toNat
      omega
    refine ⟨InvOK_addChild ht _ parent rfl (by show (2:ℕ) ≠ 0; decide) hok hp, ?_,
      ⟨_, rfl⟩, ?_, trivial⟩
    · rw [count_node_type_append, count_node_type_singleton_ne _ _ (by show (2:ℕ) ≠ 0; decide)]
      omega
    · simp only [List.map_append, List.mem_append]
      exact Or.inl hp
  · simp only [if_neg hfl]
    have h2 : (2 : ℤ) ≤ C.max_depth := division_guard_implies_two d C.max_depth
      (by omega) hfl
    have hz : (C.max_depth : ℚ) ≠ 0 := by
      exact_mod_cast (by omega : C.max_depth ≠ 0)
    simp only [qdiv, if_neg hz]
    by_cases hr : o.reals t.rk < 1 - (d : ℚ) / (C.max_depth : ℚ)
    · simp only [if_pos hr, reduceIte, create_node_inter, create_edge]
      have hok : NodeOK o C ⟨t.node_counter + 1, 1, d + 1, -1, d + 1⟩ := by
        refine ⟨?_, fun h => absurd h (by show ¬ (1:ℕ) = 2; decide), fun _ => rfl⟩
        show d + 1 ≤ C.max_depth.toNat
        omega
      have ht2 := InvOK_addChild ht ⟨t.node_counter + 1, 1, d + 1, -1, d + 1⟩
        parent rfl (by show (1:ℕ) ≠ 0; decide) hok hp
      have hchild : t.node_counter + 1 ∈
          (t.nodes ++ [(⟨t.node_counter + 1, 1, d + 1, -1, d + 1⟩ : Node)]).map
            Node.id := by
        simp
      obtain ⟨hS, hc0, hpre, hnone⟩ := hrec (t.node_counter + 1)
        ⟨t.node_counter + 1,
          t.nodes ++ [⟨t.node_counter + 1, 1, d + 1, -1, d + 1⟩],
          t.edges ++ [(t.node_counter + 1, parent)], t.ik, t.rk + 1⟩
        ht2 hchild
      refine ⟨hS, ?_, ?_, ?_, hnone⟩
      · rw [hc0]
        show count_node_type (t.nodes ++ [⟨t.node_counter + 1, 1, d + 1, -1, d + 1⟩]) 0
          = count_node_type t.nodes 0
        rw [count_node_type_append, count_node_type_singleton_ne _ _ (by show (1:ℕ) ≠ 0; decide)]
        omega
      · exact List.IsPrefix.trans ⟨_, rfl⟩ hpre
      · have hp2 : parent ∈
            (t.nodes ++ [(⟨t.node_counter + 1, 1, d + 1, -1, d + 1⟩ : Node)]).map
              Node.id := by
          simp only [List.map_append, List.mem_append]
          exact Or.inl hp
        obtain ⟨x, hx, hxe⟩ := List.mem_map.1 hp2
        exact List.mem_map.2 ⟨x, hpre.subset hx, hxe⟩
    · simp only [if_neg hr, create_node_leaf, create_edge]
      have hne1 : (2 : ℕ) ≠ 1 := by omega
      simp only [if_neg hne1]
      have hok : NodeOK o C ⟨t.node_counter + 1, 2, d + 1,
          biased_random_low_number (o.reals (t.rk + 1)), d + 1⟩ := by
        refine ⟨?_, fun _ => ⟨t.rk + 1, rfl⟩, fun h => absurd rfl h⟩
        show d + 1 ≤ C.max_depth.toNat
        omega
      refine ⟨InvOK_addChild ht _ parent rfl (by show (2:ℕ) ≠ 0; decide) hok hp, ?_,
        ⟨_, rfl⟩, ?_, trivial⟩
      · rw [count_node_type_append, count_node_type_singleton_ne _ _ (by show (2:ℕ) ≠ 0; decide)]
        omega
      · simp only [List.map_append, List.mem_append]
        exact Or.inl hp

/-- `create_tree`, called on a well-formed state with a registered parent,
preserves the structural invariant, creates no further top node, only
appends nodes, and — when the children range is non-empty-able
(`min_children ≤ max_num_children`) — raises no error. -/
theorem create_tree_inv {o : Oracle} {C : Config} {N : ℕ} :
    ∀ (fuel parent d : ℕ) (s : GenState),
      StateOK o C N s → parent ∈ s.nodes.map Node.id →
      StateOK o C N (create_tree o C fuel parent d s).1 ∧
      count_node_type (create_tree o C fuel parent d s).1.nodes 0
        = count_node_type s.nodes 0 ∧
      s.nodes <+: (create_tree o C fuel parent d s).1.nodes ∧
      (C.min_children ≤ C.max_num_children →
        (create_tree o C fuel parent d s).2 = none) := by
  intro fuel
  induction fuel with
  | zero =>
    intro parent d s hs hp
    exact ⟨hs, rfl, List.prefix_refl _, fun _ => rfl⟩
  | succ k ih =>
    intro parent d s hs hp
    rw [create_tree]
    by_cases hd : (d : ℤ) ≥ C.max_depth
    · simp only [if_pos hd]
      exact ⟨hs, by simp, List.prefix_refl _, fun _ => by simp⟩
    · simp only [if_neg hd]
      by_cases hmm : C.min_children ≤ C.max_num_children
      · simp only [if_pos hmm]
        have hrec : ∀ p t, StateOK o C N t → p ∈ t.nodes.map Node.id →
            StateOK o C N (create_tree o C k p (d + 1) t).1 ∧
            count_node_type (create_tree o C k p (d + 1) t).1.nodes 0
              = count_node_type t.nodes 0 ∧
            t.nodes <+: (create_tree o C k p (d + 1) t).1.nodes ∧
            (create_tree o C k p (d + 1) t).2 = none := by
          intro p t hSt hmem
          obtain ⟨a, b, c, e⟩ := ih p (d + 1) t hSt hmem
          exact ⟨a, b, c, e hmm⟩
        have main := foldl_inv (P := fun acc : GenState × Option GenError =>
            StateOK o C N acc.1 ∧
            count_node_type acc.1.nodes 0 = count_node_type s.nodes 0 ∧
            s.nodes <+: acc.1.nodes ∧
            parent ∈ acc.1.nodes.map Node.id ∧
            acc.2 = none)
          (child_step o C parent d (create_tree o C k))
          (by
            rintro ⟨t, e⟩ a ⟨hS, hc0, hpre, hp', hnone⟩
            simp only [] at hnone
            subst hnone
            obtain ⟨w1, w2, w3, w4, w5⟩ := child_step_inv hd hrec t a hS hp'
            exact ⟨w1, w2.trans hc0, hpre.trans w3, w4, w5⟩)
          (List.range (randint C.min_children C.max_num_children (o.ints s.ik)))
          ({ s with ik := s.ik + 1 }, none)
          ⟨hs, rfl, List.prefix_refl _, hp, rfl⟩
        exact ⟨main.1, main.2.1, main.2.2.1, fun _ => main.2.2.2.2⟩
      · simp only [if_neg hmm]
        exact ⟨hs, by simp, List.prefix_refl _, fun h => absurd h hmm⟩

/-- The top event node built by `generate_subgraph` from a freshly reset
state. -/
def top_node (o : Oracle) (N ik : ℕ) : Node :=
  ⟨N + 1, 0, choice12 (o.ints ik), -1, 0⟩

/-- The state right after `create_node(0)` on a reset state. -/
theorem create_node_top_reset (o : Oracle) (N ik rk : ℕ) :
    create_node o 0 none 0 (reset N ik rk)
      = (N + 1, ⟨N + 1, [top_node o N ik], [], ik + 1, rk⟩) := rfl

/-- The reset-then-top-node state satisfies the structural invariant. -/
theorem StateOK_after_top (o : Oracle) (C : Config) (N ik rk : ℕ) :
    StateOK o C N (⟨N + 1, [top_node o N ik], [], ik + 1, rk⟩ : GenState) := by
  refine ⟨rfl, by simp [top_node, List.range'], by simp [top_node], by simp, ?_, ?_, ?_⟩
  · simp [count_node_type, top_node, List.filter]
  · intro nd hnd h0
    simp only [List.mem_singleton] at hnd
    subst hnd
    rfl
  · intro nd hnd
    simp only [List.mem_singleton] at hnd
    subst hnd
    exact ⟨Nat.zero_le _, fun h => absurd h (by show ¬ (0:ℕ) = 2; decide),
      fun _ => rfl⟩

/-- `generate_subgraph` on a reset state: the result satisfies the
structural invariant, has exactly one top node (the first one), and under
a sane children range no error is raised. -/
theorem generate_subgraph_inv (o : Oracle) (C : Config) (N ik rk : ℕ) :
    StateOK o C N (generate_subgraph o C (reset N ik rk)).1 ∧
    count_node_type (generate_subgraph o C (reset N ik rk)).1.nodes 0 = 1 ∧
    [top_node o N ik] <+: (generate_subgraph o C (reset N ik rk)).1.nodes ∧
    (C.min_children ≤ C.max_num_children →
      (generate_subgraph o C (reset N ik rk)).2 = none) := by
  have hs := StateOK_after_top o C N ik rk
  have hp : N + 1 ∈
      ([top_node o N ik].map Node.id : List ℕ) := by
    simp [top_node]
  have main := create_tree_inv (o := o) (C := C) (N := N) C.max_depth.toNat (N + 1) 0
    ⟨N + 1, [top_node o N ik], [], ik + 1, rk⟩ hs hp
  have hc1 : count_node_type [top_node o N ik] 0 = 1 := by
    simp [count_node_type, top_node, List.filter]
  refine ⟨main.1, ?_, main.2.2.1, main.2.2.2⟩
  show count_node_type (create_tree o C C.max_depth.toNat (N + 1) 0
    ⟨N + 1, [top_node o N ik], [], ik + 1, rk⟩).1.nodes 0 = 1
  rw [main.2.1, hc1]

/-- With `max_depth ≤ 0` the recursion returns immediately: the graph is
the top node alone, no edges. -/
theorem generate_subgraph_depth_nonpos (o : Oracle) (C : Config)
    (hC : C.max_depth ≤ 0) (N ik rk : ℕ) :
    generate_subgraph o C (reset N ik rk)
      = (⟨N + 1, [top_node o N ik], [], ik + 1, rk⟩, none) := by
  have h0 : C.max_depth.toNat = 0 := by omega
  show create_tree o C C.max_depth.toNat (N + 1) 0
      ⟨N + 1, [top_node o N ik], [], ik + 1, rk⟩ = _
  rw [h0, create_tree]

/-! ## Counting helpers for degrees -/

theorem sum_map_add_pointwise {γ : Type _} (g h : γ → ℕ) (l : List γ) :
    (l.map (fun v => g v + h v)).sum = (l.map g).sum + (l.map h).sum := by
  induction l with
  | nil => simp
  | cons x xs ih =>
    simp only [List.map_cons, List.sum_cons, ih]
    omega

theorem sum_map_ite_eq_one (a : ℕ) :
    ∀ (l : List ℕ), l.Nodup → a ∈ l →
      (l.map (fun v => if a = v then 1 else 0)).sum = 1 := by
  intro l
  induction l with
  | nil => intro _ ha; cases ha
  | cons x xs ih =>
    intro hnd ha
    rcases List.mem_cons.1 ha with rfl | ha'
    · simp only [List.map_cons, List.sum_cons, if_pos rfl]
      have hnx : a ∉ xs := (List.nodup_cons.1 hnd).1
      have hz : (xs.map (fun v => if a = v then 1 else 0)).sum = 0 := by
        refine List.sum_eq_zero ?_
        intro y hy
        obtain ⟨v, hv, rfl⟩ := List.mem_map.1 hy
        rw [if_neg]
        rintro rfl
        exact hnx hv
      rw [hz]
      simp
    · have hax : a ≠ x := by
        rintro rfl
        exact (List.nodup_cons.1 hnd).1 ha'
      simp only [List.map_cons, List.sum_cons, if_neg hax]
      rw [ih (List.nodup_cons.1 hnd).2 ha']

/-- Fibre-counting: summing, over a duplicate-free list of values covering
every `f e`, the number of entries of `es` mapping to each value, gives
`es.length`. -/
theorem sum_filter_length {γ : Type _} (f : γ → ℕ) :
    ∀ (es : List γ) (ids : List ℕ), (∀ e ∈ es, f e ∈ ids) → ids.Nodup →
      (ids.map (fun v => (es.filter (fun e => f e = v)).length)).sum = es.length := by
  intro es
  induction es with
  | nil => intro ids _ _; simp
  | cons e es ih =>
    intro ids hmem hnd
    have h1 : ∀ v ∈ ids, ((e :: es).filter (fun x => f x = v)).length
        = (if f e = v then 1 else 0) + (es.filter (fun x => f x = v)).length := by
      intro v _
      by_cases hv : f e = v
      · simp [List.filter_cons, hv]
        omega
      · simp [List.filter_cons, hv]
    rw [List.map_congr_left h1, sum_map_add_pointwise,
      sum_map_ite_eq_one (f e) ids hnd (hmem e (List.mem_cons_self e es)),
      ih ids (fun x hx => hmem x (List.mem_cons_of_mem e hx)) hnd]
    simp only [List.length_cons]
    omega

theorem countP_eq_one_of_nodup_mem {v : ℕ} :
    ∀ {l : List ℕ}, l.Nodup → v ∈ l → l.countP (fun x => x = v) = 1 := by
  intro l
  induction l with
  | nil => intro _ hv; cases hv
  | cons x xs ih =>
    intro hnd hv
    rcases List.mem_cons.1 hv with rfl | hv'
    · rw [List.countP_cons_of_pos _ _ (by simp)]
      have : xs.countP (fun x => x = v) = 0 := by
        rw [List.countP_eq_zero]
        intro a ha hav
        simp only [decide_eq_true_eq] at hav
        subst hav
        exact (List.nodup_cons.1 hnd).1 ha
      omega
    · have hvx : ¬ (x = v) := by
        rintro rfl
        exact (List.nodup_cons.1 hnd).1 hv'
      rw [List.countP_cons_of_neg _ _ (by simpa using hvx)]
      exact ih (List.nodup_cons.1 hnd).2 hv'

theorem countP_eq_zero_of_not_mem {v : ℕ} {l : List ℕ} (hv : v ∉ l) :
    l.countP (fun x => x = v) = 0 := by
  rw [List.countP_eq_zero]
  intro a ha hav
  simp only [decide_eq_true_eq] at hav
  subst hav
  exact hv ha

theorem out_degree_eq_countP (s : GenState) (v : ℕ) :
    out_degree s v = (s.edges.map Prod.fst).countP (fun x => x = v) := by
  rw [out_degree, ← List.countP_eq_length_filter, List.countP_map]
  rfl

theorem in_degree_eq_countP (s : GenState) (v : ℕ) :
    in_degree s v = (s.edges.map Prod.snd).countP (fun x => x = v) := by
  rw [in_degree, ← List.countP_eq_length_filter, List.countP_map]
  rfl

/-- Degree facts of any state satisfying the structural invariant with a
single top node: the edge/node count relation, per-node out-degrees, and
both degree sums. -/
theorem degrees_of_stateOK {o : Oracle} {C : Config} {N : ℕ} {s : GenState}
    (h : StateOK o C N s) (h1 : count_node_type s.nodes 0 = 1) :
    s.edges.length + 1 = s.nodes.length ∧
    (∀ nd ∈ s.nodes, nd.node_type ≠ 0 → out_degree s nd.id = 1) ∧
    (∀ nd ∈ s.nodes, nd.node_type = 0 → out_degree s nd.id = 0) ∧
    (s.nodes.map (fun nd => out_degree s nd.id)).sum = s.edges.length ∧
    (s.nodes.map (fun nd => in_degree s nd.id)).sum = s.edges.length := by
  have hnd : (s.nodes.map Node.id).Nodup := by
    rw [h.ids_eq]
    exact List.nodup_range' _ _
  have hsub : List.Sublist
      ((s.nodes.filter (fun nd => nd.node_type ≠ 0)).map Node.id)
      (s.nodes.map Node.id) :=
    List.Sublist.map Node.id (List.filter_sublist s.nodes)
  have hndL : ((s.nodes.filter (fun nd => nd.node_type ≠ 0)).map Node.id).Nodup :=
    List.Nodup.sublist hsub hnd
  refine ⟨?_, ?_, ?_, ?_, ?_⟩
  · have := h.edge_count
    omega
  · intro nd hmem hnt
    rw [out_degree_eq_countP, h.srcs_eq]
    refine countP_eq_one_of_nodup_mem hndL ?_
    exact List.mem_map_of_mem Node.id (List.mem_filter.2 ⟨hmem, by simpa using hnt⟩)
  · intro nd hmem h0
    rw [out_degree_eq_countP, h.srcs_eq]
    refine countP_eq_zero_of_not_mem ?_
    intro hin
    obtain ⟨x, hx, hxid⟩ := List.mem_map.1 hin
    have hxmem : x ∈ s.nodes := (List.mem_filter.1 hx).1
    have hxne : x.node_type ≠ 0 := by
      have := (List.mem_filter.1 hx).2
      simpa using this
    have hxeq : x = nd :=
      List.inj_on_of_nodup_map hnd hxmem hmem hxid
    rw [hxeq] at hxne
    exact hxne h0
  · have hmem : ∀ e ∈ s.edges, e.1 ∈ s.nodes.map Node.id := by
      intro e he
      have : e.1 ∈ s.edges.map Prod.fst := List.mem_map_of_mem Prod.fst he
      rw [h.srcs_eq] at this
      exact hsub.subset this
    have hform : s.nodes.map (fun nd => out_degree s nd.id)
        = (s.nodes.map Node.id).map
            (fun v => (s.edges.filter (fun e => Prod.fst e = v)).length) := by
      rw [List.map_map]
      rfl
    rw [hform]
    exact sum_filter_length Prod.fst s.edges (s.nodes.map Node.id) hmem hnd
  · have hform : s.nodes.map (fun nd => in_degree s nd.id)
        = (s.nodes.map Node.id).map
            (fun v => (s.edges.filter (fun e => Prod.snd e = v)).length) := by
      rw [List.map_map]
      rfl
    rw [hform]
    exact sum_filter_length Prod.snd s.edges (s.nodes.map Node.id) h.tgt_mem hnd

/-! ## Helpers for the fan-out and child-type rules -/

theorem randint_mem (lo hi raw : ℕ) (h : lo ≤ hi) :
    lo ≤ randint lo hi raw ∧ randint lo hi raw ≤ hi := by
  unfold randint
  have hpos : 0 < hi + 1 - lo := by omega
  have := Nat.mod_lt raw hpos
  omega

theorem randint_surj (lo hi v : ℕ) (h1 : lo ≤ v) (h2 : v ≤ hi) :
    randint lo hi (v - lo) = v := by
  unfold randint
  have hlt : v - lo < hi + 1 - lo := by omega
  rw [Nat.mod_eq_of_lt hlt]
  omega

theorem randint_inj (lo hi r₁ r₂ : ℕ) (h₁ : r₁ < hi + 1 - lo)
    (h₂ : r₂ < hi + 1 - lo) (he : randint lo hi r₁ = randint lo hi r₂) :
    r₁ = r₂ := by
  unfold randint at he
  rw [Nat.mod_eq_of_lt h₁, Nat.mod_eq_of_lt h₂] at he
  omega

/-- When `create_tree` is invoked at `current_depth = max_depth - 1`, every
node it adds is a LEAF (`node_type = 2`): the forced-leaf branch is taken
for every child and no recursion happens. -/
theorem create_tree_forced_leaf {o : Oracle} {C : Config} {d : ℕ}
    (hfl : (d : ℤ) = C.max_depth - 1) :
    ∀ (fuel parent : ℕ) (s : GenState),
      ∀ nd ∈ (create_tree o C fuel parent d s).1.nodes,
        nd ∈ s.nodes ∨ nd.node_type = 2 := by
  intro fuel
  match fuel with
  | 0 => intro parent s nd hnd; exact Or.inl hnd
  | k + 1 =>
    intro parent s
    rw [create_tree]
    by_cases hd : (d : ℤ) ≥ C.max_depth
    · simp only [if_pos hd]
      intro nd hnd
      exact Or.inl hnd
    · simp only [if_neg hd]
      by_cases hmm : C.min_children ≤ C.max_num_children
      · simp only [if_pos hmm]
        refine foldl_inv (P := fun acc : GenState × Option GenError =>
            ∀ nd ∈ acc.1.nodes, nd ∈ s.nodes ∨ nd.node_type = 2)
          _ ?_ _ _ ?_
        · rintro ⟨t, e⟩ a hb
          match e with
          | some err => exact hb
          | none =>
            simp only [child_step, if_pos hfl, create_node_leaf, create_edge]
            intro nd hnd
            rcases List.mem_append.1 hnd with hnd | hnd
            · exact hb nd hnd
            · simp only [List.mem_singleton] at hnd
              subst hnd
              exact Or.inr rfl
        · intro nd hnd
          exact Or.inl hnd
      · simp only [if_neg hmm]
        intro nd hnd
        exact Or.inl hnd

theorem getElem?_of_leading_part {α : Type _} {l₁ l₂ : List α} (h : l₁ <+: l₂)
    {i : ℕ} (hi : i < l₁.length) : l₂[i]? = l₁[i]? := by
  obtain ⟨t, rfl⟩ := h
  exact List.getElem?_append_left hi

/-- Below the depth cap and away from the forced-leaf level, the first
child `create_tree` creates is intermediate exactly when the fresh uniform
draw `r` satisfies `r < 1 - current_depth / max_depth`; its `gate_type` is
the depth it was created at (the positional-argument slip) and its id is
the next counter value. -/
theorem create_tree_first_child {o : Oracle} {C : Config}
    (fuel parent d : ℕ) (s : GenState)
    (hd : ¬ (d : ℤ) ≥ C.max_depth) (hfl : ¬ (d : ℤ) = C.max_depth - 1)
    (hmin : 1 ≤ C.min_children) (hmm : C.min_children ≤ C.max_num_children) :
    ∃ nd : Node,
      (create_tree o C (fuel + 1) parent d s).1.nodes[s.nodes.length]? = some nd ∧
      nd.node_type
        = (if o.reals s.rk < 1 - (d : ℚ) / (C.max_depth : ℚ) then 1 else 2) ∧
      nd.gate_type = d + 1 ∧ nd.id = s.node_counter + 1 := by
  rw [create_tree]
  simp only [if_neg hd, if_pos hmm]
  have hn1 : 1 ≤ randint C.min_children C.max_num_children (o.ints s.ik) :=
    le_trans hmin (randint_mem _ _ _ hmm).1
  obtain ⟨k, hk⟩ : ∃ k,
      randint C.min_children C.max_num_children (o.ints s.ik) = k + 1 :=
    ⟨randint C.min_children C.max_num_children (o.ints s.ik) - 1, by omega⟩
  rw [hk, List.range_succ_eq_map, List.foldl_cons]
  have h2 : (2 : ℤ) ≤ C.max_depth := division_guard_implies_two d C.max_depth
    (by omega) hfl
  have hz : (C.max_depth : ℚ) ≠ 0 := by
    exact_mod_cast (by omega : C.max_depth ≠ 0)
  have hrest : ∀ (l : List ℕ) (acc : GenState × Option GenError),
      acc.1.nodes <+:
        (l.foldl (child_step o C parent d (create_tree o C fuel)) acc).1.nodes := by
    intro l acc
    exact foldl_inv (P := fun b : GenState × Option GenError =>
        acc.1.nodes <+: b.1.nodes) _
      (fun b a hb => hb.trans
        (child_step_appends_nodes (fun p dd t => create_tree_appends_nodes fuel p dd t) b a))
      l acc (List.prefix_refl _)
  by_cases hr : o.reals s.rk < 1 - (d : ℚ) / (C.max_depth : ℚ)
  · have hstep : child_step o C parent d (create_tree o C fuel)
        ({ s with ik := s.ik + 1 }, none) 0
        = create_tree o C fuel (s.node_counter + 1) (d + 1)
            ⟨s.node_counter + 1,
              s.nodes ++ [⟨s.node_counter + 1, 1, d + 1, -1, d + 1⟩],
              s.edges ++ [(s.node_counter + 1, parent)], s.ik + 1, s.rk + 1⟩ := by
      simp only [child_step, if_neg hfl, qdiv, if_neg hz, if_pos hr, reduceIte,
        create_node_inter, create_edge]
    rw [hstep]
    refine ⟨⟨s.node_counter + 1, 1, d + 1, -1, d + 1⟩, ?_, by simp [hr], rfl, rfl⟩
    have hchain : (s.nodes ++ [(⟨s.node_counter + 1, 1, d + 1, -1, d + 1⟩ : Node)])
        <+: (((List.range k).map Nat.succ).foldl
          (child_step o C parent d (create_tree o C fuel))
          (create_tree o C fuel (s.node_counter + 1) (d + 1)
            ⟨s.node_counter + 1,
              s.nodes ++ [⟨s.node_counter + 1, 1, d + 1, -1, d + 1⟩],
              s.edges ++ [(s.node_counter + 1, parent)], s.ik + 1, s.rk + 1⟩)).1.nodes := by
      refine List.IsPrefix.trans ?_ (hrest _ _)
      exact create_tree_appends_nodes fuel (s.node_counter + 1) (d + 1)
        ⟨s.node_counter + 1,
          s.nodes ++ [⟨s.node_counter + 1, 1, d + 1, -1, d + 1⟩],
          s.edges ++ [(s.node_counter + 1, parent)], s.ik + 1, s.rk + 1⟩
    rw [getElem?_of_leading_part hchain (by simp)]
    exact List.getElem?_concat_length _ _
  · have hstep : child_step o C parent d (create_tree o C fuel)
        ({ s with ik := s.ik + 1 }, none) 0
        = (⟨s.node_counter + 1,
            s.nodes ++ [⟨s.node_counter + 1, 2, d + 1,
              biased_random_low_number (o.reals (s.rk + 1)), d + 1⟩],
            s.edges ++ [(s.node_counter + 1, parent)], s.ik + 1, s.rk + 1 + 1⟩, none) := by
      simp only [child_step, if_neg hfl, qdiv, if_neg hz, if_neg hr,
        create_node_leaf, create_edge]
      have hne1 : (2 : ℕ) ≠ 1 := by omega
      simp only [if_neg hne1]
    rw [hstep]
    refine ⟨⟨s.node_counter + 1, 2, d + 1,
      biased_random_low_number (o.reals (s.rk + 1)), d + 1⟩, ?_, by simp [hr],
      rfl, rfl⟩
    have hchain : (s.nodes ++ [(⟨s.node_counter + 1, 2, d + 1,
        biased_random_low_number (o.reals (s.rk + 1)), d + 1⟩ : Node)])
        <+: (((List.range k).map Nat.succ).foldl
          (child_step o C parent d (create_tree o C fuel))
          (⟨s.node_counter + 1,
            s.nodes ++ [⟨s.node_counter + 1, 2, d + 1,
              biased_random_low_number (o.reals (s.rk + 1)), d + 1⟩],
            s.edges ++ [(s.node_counter + 1, parent)], s.ik + 1,
            s.rk + 1 + 1⟩, none)).1.nodes :=
      hrest ((List.range k).map Nat.succ)
        (⟨s.node_counter + 1,
          s.nodes ++ [⟨s.node_counter + 1, 2, d + 1,
            biased_random_low_number (o.reals (s.rk + 1)), d + 1⟩],
          s.edges ++ [(s.node_counter + 1, parent)], s.ik + 1,
          s.rk + 1 + 1⟩, none)
    rw [getElem?_of_leading_part hchain (by simp)]
    exact List.getElem?_concat_length _ _

theorem range'_append_one (s m n : ℕ) :
    List.range' s m ++ List.range' (s + m) n = List.range' s (m + n) := by
  have h := List.range'_append s m n 1
  simp only [one_mul] at h
  rw [h, Nat.add_comm n m]

/-- Across a whole run of `g` graphs starting from the persisted counter
`N`: the node ids of all graphs, in creation order, are exactly the
consecutive integers `N+1, …, N+total`; the finally persisted counter is
`N + total`; and with a sane children range no graph errors. -/
theorem run_inv (o : Oracle) (C : Config) :
    ∀ (g N ik rk : ℕ),
      ((run o C g N ik rk).1.map (fun p => p.1.map Node.id)).flatten
        = List.range' (N + 1)
            (((run o C g N ik rk).1.map (fun p => p.1.length)).sum) ∧
      (run o C g N ik rk).2
        = N + ((run o C g N ik rk).1.map (fun p => p.1.length)).sum ∧
      (C.min_children ≤ C.max_num_children →
        ∀ p ∈ (run o C g N ik rk).1, p.2 = none) := by
  intro g
  induction g with
  | zero =>
    intro N ik rk
    refine ⟨by simp [run], by simp [run], by simp [run]⟩
  | succ g ih =>
    intro N ik rk
    obtain ⟨hS, _, _, herr1⟩ := generate_subgraph_inv o C N ik rk
    rw [run]
    set se := generate_subgraph o C (reset N ik rk) with hse
    obtain ⟨ih1, ih2, ih3⟩ := ih se.1.node_counter se.1.ik se.1.rk
    set rest := run o C g se.1.node_counter se.1.ik se.1.rk with hrest
    have hcnt : se.1.node_counter + 1 = (N + 1) + se.1.nodes.length := by
      have := hS.counter_eq
      omega
    refine ⟨?_, ?_, ?_⟩
    · simp only [List.map_cons, List.flatten_cons, List.sum_cons]
      rw [hS.ids_eq, ih1, hcnt, range'_append_one]
    · simp only [List.map_cons, List.sum_cons]
      rw [ih2]
      have := hS.counter_eq
      omega
    · intro hmm p hp
      rcases List.mem_cons.1 hp with rfl | hp'
      · exact herr1 hmm
      · exact ih3 hmm p hp'

/-- With a non-empty children range, `create_tree` never raises any
error. -/
theorem create_tree_no_err {o : Oracle} {C : Config}
    (hmm : C.min_children ≤ C.max_num_children) :
    ∀ (fuel parent d : ℕ) (s : GenState),
      (create_tree o C fuel parent d s).2 = none := by
  intro fuel
  induction fuel with
  | zero => intro parent d s; rfl
  | succ k ih =>
    intro parent d s
    rw [create_tree]
    by_cases hd : (d : ℤ) ≥ C.max_depth
    · simp only [if_pos hd]
    · simp only [if_neg hd, if_pos hmm]
      refine foldl_inv (P := fun acc : GenState × Option GenError => acc.2 = none)
        _ ?_ _ _ rfl
      rintro ⟨t, e⟩ a hb
      replace hb : e = none := hb
      subst hb
      simp only [child_step]
      by_cases hfl : (d : ℤ) = C.max_depth - 1
      · simp only [if_pos hfl, create_node_leaf, create_edge]
      · simp only [if_neg hfl]
        have h2 : (2 : ℤ) ≤ C.max_depth := division_guard_implies_two d C.max_depth
          (by omega) hfl
        have hz : (C.max_depth : ℚ) ≠ 0 := by
          exact_mod_cast (by omega : C.max_depth ≠ 0)
        simp only [qdiv, if_neg hz]
        by_cases hr : o.reals t.rk < 1 - (d : ℚ) / (C.max_depth : ℚ)
        · simp only [if_pos hr, reduceIte, create_node_inter, create_edge]
          exact ih _ _ _
        · simp only [if_neg hr, create_node_leaf, create_edge]
          have hne1 : (2 : ℕ) ≠ 1 := by omega
          simp only [if_neg hne1]

/-- `create_tree` only appends edges, the counter never decreases, and
every appended edge points either to `parent` or to a node numbered after
the starting counter (a descendant created during this call). -/
theorem create_tree_new_edges {o : Oracle} {C : Config} :
    ∀ (fuel parent d : ℕ) (s : GenState),
      ∃ new, (create_tree o C fuel parent d s).1.edges = s.edges ++ new ∧
        s.node_counter ≤ (create_tree o C fuel parent d s).1.node_counter ∧
        ∀ e ∈ new, e.2 = parent ∨ s.node_counter < e.2 := by
  intro fuel
  induction fuel with
  | zero =>
    intro parent d s
    exact ⟨[], by simp [create_tree], le_refl _, by simp⟩
  | succ k ih =>
    intro parent d s
    rw [create_tree]
    by_cases hd : (d : ℤ) ≥ C.max_depth
    · simp only [if_pos hd]
      exact ⟨[], by simp, le_refl _, by simp⟩
    · simp only [if_neg hd]
      by_cases hmm : C.min_children ≤ C.max_num_children
      · simp only [if_pos hmm]
        refine foldl_inv (P := fun acc : GenState × Option GenError =>
            ∃ new, acc.1.edges = s.edges ++ new ∧
              s.node_counter ≤ acc.1.node_counter ∧
              ∀ e ∈ new, e.2 = parent ∨ s.node_counter < e.2)
          _ ?_ _ _ ⟨[], by simp, le_refl _, by simp⟩
        rintro ⟨t, e⟩ a ⟨new, hnew, hcnt, htgt⟩
        match e with
        | some err => exact ⟨new, hnew, hcnt, htgt⟩
        | none =>
          replace hnew : t.edges = s.edges ++ new := hnew
          replace hcnt : s.node_counter ≤ t.node_counter := hcnt
          simp only [child_step]
          by_cases hfl : (d : ℤ) = C.max_depth - 1
          · simp only [if_pos hfl, create_node_leaf, create_edge]
            refine ⟨new ++ [(t.node_counter + 1, parent)], by simp [hnew],
              le_trans hcnt (Nat.le_succ _), ?_⟩
            intro e he
            rcases List.mem_append.1 he with he | he
            · exact htgt e he
            · simp only [List.mem_singleton] at he
              subst he
              exact Or.inl rfl
          · simp only [if_neg hfl]
            have h2 : (2 : ℤ) ≤ C.max_depth := division_guard_implies_two d
              C.max_depth (by omega) hfl
            have hz : (C.max_depth : ℚ) ≠ 0 := by
              exact_mod_cast (by omega : C.max_depth ≠ 0)
            simp only [qdiv, if_neg hz]
            by_cases hr : o.reals t.rk < 1 - (d : ℚ) / (C.max_depth : ℚ)
            · simp only [if_pos hr, reduceIte, create_node_inter, create_edge]
              obtain ⟨new2, hnew2, hcnt2, htgt2⟩ := ih (t.node_counter + 1) (d + 1)
                ⟨t.node_counter + 1,
                  t.nodes ++ [⟨t.node_counter + 1, 1, d + 1, -1, d + 1⟩],
                  t.edges ++ [(t.node_counter + 1, parent)], t.ik, t.rk + 1⟩
              replace hnew2 : (create_tree o C k (t.node_counter + 1) (d + 1)
                  ⟨t.node_counter + 1,
                    t.nodes ++ [⟨t.node_counter + 1, 1, d + 1, -1, d + 1⟩],
                    t.edges ++ [(t.node_counter + 1, parent)], t.ik,
                    t.rk + 1⟩).1.edges
                  = (t.edges ++ [(t.node_counter + 1, parent)]) ++ new2 := hnew2
              refine ⟨new ++ ([(t.node_counter + 1, parent)] ++ new2), ?_, ?_, ?_⟩
              · rw [hnew2, hnew]
                simp
              · exact le_trans (le_trans hcnt (Nat.le_succ _)) hcnt2
              · intro e he
                rcases List.mem_append.1 he with he | he
                · exact htgt e he
                · rcases List.mem_append.1 he with he | he
                  · simp only [List.mem_singleton] at he
                    subst he
                    exact Or.inl rfl
                  · rcases htgt2 e he with he2 | he2
                    · replace he2 : e.2 = t.node_counter + 1 := he2
                      rw [he2]
                      exact Or.inr (by omega)
                    · replace he2 : t.node_counter + 1 < e.2 := he2
                      exact Or.inr (by omega)
            · simp only [if_neg hr, create_node_leaf, create_edge]
              have hne1 : (2 : ℕ) ≠ 1 := by omega
              simp only [if_neg hne1]
              refine ⟨new ++ [(t.node_counter + 1, parent)], by simp [hnew],
                le_trans hcnt (Nat.le_succ _), ?_⟩
              intro e he
              rcases List.mem_append.1 he with he | he
              · exact htgt e he
              · simp only [List.mem_singleton] at he
                subst he
                exact Or.inl rfl
      · simp only [if_neg hmm]
        exact ⟨[], by simp, le_refl _, by simp⟩

theorem in_degree_append_parent (t : GenState) (c parent : ℕ) :
    in_degree { t with edges := t.edges ++ [(c, parent)] } parent
      = in_degree t parent + 1 := by
  simp [in_degree, List.filter_append]

/-- Below the depth cap with a sane children range, one `create_tree` call
gives `parent` exactly `randint min_children max_num_children raw` direct
children, `raw` being the fresh integer draw: the number of edges pointing
at `parent` grows by exactly the drawn fan-out. -/
theorem create_tree_direct_children {o : Oracle} {C : Config}
    (hmm : C.min_children ≤ C.max_num_children) :
    ∀ (fuel parent d : ℕ) (s : GenState),
      ¬ (d : ℤ) ≥ C.max_depth → parent ≤ s.node_counter →
      in_degree (create_tree o C (fuel + 1) parent d s).1 parent
        = in_degree s parent
          + randint C.min_children C.max_num_children (o.ints s.ik) := by
  intro fuel parent d s hd hp
  rw [create_tree]
  simp only [if_neg hd, if_pos hmm]
  have key : ∀ (l : List ℕ) (acc : GenState × Option GenError),
      acc.2 = none → parent ≤ acc.1.node_counter →
      in_degree (l.foldl (child_step o C parent d (create_tree o C fuel)) acc).1
          parent
        = in_degree acc.1 parent + l.length ∧
      (l.foldl (child_step o C parent d (create_tree o C fuel)) acc).2 = none ∧
      parent ≤
        (l.foldl (child_step o C parent d (create_tree o C fuel)) acc).1.node_counter := by
    intro l
    induction l with
    | nil =>
      intro acc he hpc
      exact ⟨by simp, he, hpc⟩
    | cons x xs ihl =>
      intro acc he hpc
      rw [List.foldl_cons]
      obtain ⟨t, e⟩ := acc
      replace he : e = none := he
      subst he
      replace hpc : parent ≤ t.node_counter := hpc
      have hstep : in_degree (child_step o C parent d (create_tree o C fuel)
            (t, none) x).1 parent = in_degree t parent + 1 ∧
          (child_step o C parent d (create_tree o C fuel) (t, none) x).2 = none ∧
          parent ≤ (child_step o C parent d (create_tree o C fuel)
            (t, none) x).1.node_counter := by
        simp only [child_step]
        by_cases hfl : (d : ℤ) = C.max_depth - 1
        · simp only [if_pos hfl, create_node_leaf, create_edge]
          refine ⟨?_, by trivial, ?_⟩
          · exact in_degree_append_parent
              { t with
                nodes := t.nodes ++ [⟨t.node_counter + 1, 2, d + 1,
                  biased_random_low_number (o.reals t.rk), d + 1⟩]
                node_counter := t.node_counter + 1
                rk := t.rk + 1 } (t.node_counter + 1) parent
          · show parent ≤ t.node_counter + 1
            omega
        · simp only [if_neg hfl]
          have h2 : (2 : ℤ) ≤ C.max_depth := division_guard_implies_two d
            C.max_depth (by omega) hfl
          have hz : (C.max_depth : ℚ) ≠ 0 := by
            exact_mod_cast (by omega : C.max_depth ≠ 0)
          simp only [qdiv, if_neg hz]
          by_cases hr : o.reals t.rk < 1 - (d : ℚ) / (C.max_depth : ℚ)
          · simp only [if_pos hr, reduceIte, create_node_inter, create_edge]
            obtain ⟨new2, hnew2, hcnt2, htgt2⟩ :=
              create_tree_new_edges fuel (t.node_counter + 1) (d + 1)
                ⟨t.node_counter + 1,
                  t.nodes ++ [⟨t.node_counter + 1, 1, d + 1, -1, d + 1⟩],
                  t.edges ++ [(t.node_counter + 1, parent)], t.ik, t.rk + 1⟩
            replace hnew2 : (create_tree o C fuel (t.node_counter + 1) (d + 1)
                ⟨t.node_counter + 1,
                  t.nodes ++ [⟨t.node_counter + 1, 1, d + 1, -1, d + 1⟩],
                  t.edges ++ [(t.node_counter + 1, parent)], t.ik,
                  t.rk + 1⟩).1.edges
                = (t.edges ++ [(t.node_counter + 1, parent)]) ++ new2 := hnew2
            refine ⟨?_, create_tree_no_err hmm _ _ _ _, ?_⟩
            · rw [in_degree, hnew2]
              simp only [List.filter_append, List.length_append]
              have hz2 : (new2.filter (fun e => e.2 = parent)).length = 0 := by
                have hnil : new2.filter (fun e => e.2 = parent) = [] := by
                  rw [List.filter_eq_nil_iff]
                  intro e he
                  simp only [decide_eq_true_eq]
                  rcases htgt2 e he with he2 | he2
                  · replace he2 : e.2 = t.node_counter + 1 := he2
                    omega
                  · replace he2 : t.node_counter + 1 < e.2 := he2
                    omega
                rw [hnil]
                rfl
              rw [hz2]
              show (t.edges.filter (fun e => e.2 = parent)).length
                  + (([(t.node_counter + 1, parent)].filter
                      (fun e : ℕ × ℕ => e.2 = parent)).length + 0)
                = in_degree t parent + 1
              simp [in_degree]
            · exact le_trans (le_trans hpc (Nat.le_succ _)) hcnt2
          · simp only [if_neg hr, create_node_leaf, create_edge]
            have hne1 : (2 : ℕ) ≠ 1 := by omega
            simp only [if_neg hne1]
            refine ⟨?_, by trivial, ?_⟩
            · exact in_degree_append_parent
                { t with
                  nodes := t.nodes ++ [⟨t.node_counter + 1, 2, d + 1,
                    biased_random_low_number (o.reals (t.rk + 1)), d + 1⟩]
                  node_counter := t.node_counter + 1
                  rk := t.rk + 1 + 1 } (t.node_counter + 1) parent
            · show parent ≤ t.node_counter + 1
              omega
      obtain ⟨ha, hb, hc⟩ := ihl _ hstep.2.1 hstep.2.2
      refine ⟨?_, hb, hc⟩
      rw [ha, hstep.1]
      simp only [List.length_cons]
      omega
  have hkey := key
    (List.range (randint C.min_children C.max_num_children (o.ints s.ik)))
    ({ s with ik := s.ik + 1 }, none) rfl hp
  rw [hkey.1]
  simp [in_degree]

/-! ## Concrete fixtures: a deterministic oracle and small configurations -/

/-- The all-zero oracle: every `randint`/`choice` raw draw is 0, every
uniform draw is 0 (a legitimate return value of `random.random()`). -/
def oracle0 : Oracle := ⟨fun _ => 0, fun _ => 0⟩

/-- `max_num_children = 1`, `min_children = 1`, `max_depth = 1`. -/
def config11 : Config := ⟨1, 1, 1⟩

/-- Invalid range: `max_num_children = 1 < min_children = 2`, depth 1. -/
def config21 : Config := ⟨1, 2, 1⟩

/-- Negative depth: `max_depth = -1`. -/
def configNeg : Config := ⟨1, 1, -1⟩

/-! ## Claim theorems -/

/-- C1 (code bug): on the concrete run (`min = max = 1` child,
`max_depth = 1`, all-zero oracle), the generated graph is a top node with
gate AND and one LEAF child whose `gate_type` is 1 (AND), not NONE — the
call `create_node(node_type, current_depth + 1)` in `create_tree` passes
the depth as the positional `gate_type` argument, so the claimed
"`gate_type` is NONE iff LEAF" invariant fails on every generated child. -/
theorem C1_leaf_gate_not_none :
    ((generate_subgraph oracle0 config11 (reset 0 0 0)).1.nodes.map
      (fun nd => (nd.node_type, nd.gate_type))) = [(0, 1), (2, 1)] ∧
    (∃ nd ∈ (generate_subgraph oracle0 config11 (reset 0 0 0)).1.nodes,
      nd.node_type = 2 ∧ nd.gate_type ≠ 0) := by
  constructor
  · decide
  · decide

/-- C2 (code bug): on the same concrete run the metadata violates
`num_and_gates + num_or_gates = num_intermediate_nodes + 1` (the leaf's
bogus gate 1 is tallied as an AND gate), and when the persisted counter
starts at 5 the stored `num_nodes` is the run-wide counter 7, violating
`num_intermediate_nodes + num_leaf_nodes + 1 = num_nodes`. -/
theorem C2_metadata_equations_fail :
    (add_meta_data 0 (generate_subgraph oracle0 config11 (reset 0 0 0)).1).num_and_gates
      + (add_meta_data 0 (generate_subgraph oracle0 config11 (reset 0 0 0)).1).num_or_gates
      = 2 ∧
    (add_meta_data 0 (generate_subgraph oracle0 config11 (reset 0 0 0)).1).num_intermediate_nodes
      + 1 = 1 ∧
    (add_meta_data 0 (generate_subgraph oracle0 config11 (reset 5 0 0)).1).num_nodes = 7 ∧
    (add_meta_data 0 (generate_subgraph oracle0 config11 (reset 5 0 0)).1).num_intermediate_nodes
      + (add_meta_data 0 (generate_subgraph oracle0 config11 (reset 5 0 0)).1).num_leaf_nodes
      + 1 = 2 := by
  refine ⟨by decide, by decide, by decide, by decide⟩

/-- C4 counterexample: with `min_children = 2 > max_num_children = 1` and
`max_depth = 1`, the generator does not fail before any node is created —
it creates the top event node and only then raises the `ValueError` from
`random.randint` inside the recursion. -/
theorem C4_error_after_top_node :
    (generate_subgraph oracle0 config21 (reset 0 0 0)).2
      = some GenError.emptyRange ∧
    (generate_subgraph oracle0 config21 (reset 0 0 0)).1.nodes.length = 1 := by
  constructor
  · decide
  · decide

/-- C4 amended: no validation happens in `__init__`; with
`min_children > max_num_children` and `max_depth ≥ 1` the run fails with
the `ValueError` from the integer draw inside `create_tree`, after the top
node has already been created; and a negative `max_depth` is not rejected
at all — it silently yields the single-node tree. -/
theorem C4_no_early_validation (o : Oracle) (N ik rk : ℕ) :
    (∀ C : Config, C.max_num_children < C.min_children → 1 ≤ C.max_depth →
      (generate_subgraph o C (reset N ik rk)).2 = some GenError.emptyRange ∧
      (generate_subgraph o C (reset N ik rk)).1.nodes = [top_node o N ik]) ∧
    (∀ C : Config, C.max_depth < 0 →
      (generate_subgraph o C (reset N ik rk)).2 = none ∧
      (generate_subgraph o C (reset N ik rk)).1.nodes = [top_node o N ik]) := by
  constructor
  · intro C hlt hd
    obtain ⟨k, hk⟩ : ∃ k, C.max_depth.toNat = k + 1 :=
      ⟨C.max_depth.toNat - 1, by omega⟩
    show (create_tree o C C.max_depth.toNat (N + 1) 0
        ⟨N + 1, [top_node o N ik], [], ik + 1, rk⟩).2 = some GenError.emptyRange ∧
      (create_tree o C C.max_depth.toNat (N + 1) 0
        ⟨N + 1, [top_node o N ik], [], ik + 1, rk⟩).1.nodes = [top_node o N ik]
    rw [hk, create_tree]
    have hg : ¬ ((0 : ℕ) : ℤ) ≥ C.max_depth := by
      simp only [Int.natCast_zero]
      omega
    have hmm : ¬ C.min_children ≤ C.max_num_children := by omega
    simp only [if_neg hg, if_neg hmm]
    exact ⟨True.intro, True.intro⟩
  · intro C hneg
    rw [generate_subgraph_depth_nonpos o C (by omega) N ik rk]
    exact ⟨rfl, rfl⟩

/-- Witness for `C4_no_early_validation` at the concrete configurations. -/
theorem C4_no_early_validation_witness :
    (generate_subgraph oracle0 config21 (reset 0 0 0)).2
       = some GenError.emptyRange ∧
    (generate_subgraph oracle0 configNeg (reset 0 0 0)).2 = none :=
  ⟨((C4_no_early_validation oracle0 0 0 0).1 config21 (by decide) (by decide)).1,
   ((C4_no_early_validation oracle0 0 0 0).2 configNeg (by decide)).1⟩

/-- C5: for every valid configuration (non-empty children range), every
oracle and every starting counter, the generated tree completes without
error, contains exactly one TOP node, every node was created at depth at
most `max_depth`, and at least one node exists; `max_depth = 0` yields the
top node alone with no edges. -/
theorem C5_single_top_bounded_depth (o : Oracle) (C : Config) (N ik rk : ℕ)
    (hmm : C.min_children ≤ C.max_num_children) :
    (generate_subgraph o C (reset N ik rk)).2 = none ∧
    count_node_type (generate_subgraph o C (reset N ik rk)).1.nodes 0 = 1 ∧
    (∀ nd ∈ (generate_subgraph o C (reset N ik rk)).1.nodes,
      nd.depth ≤ C.max_depth.toNat) ∧
    1 ≤ (generate_subgraph o C (reset N ik rk)).1.nodes.length ∧
    (C.max_depth = 0 →
      (generate_subgraph o C (reset N ik rk)).1.nodes = [top_node o N ik] ∧
      (generate_subgraph o C (reset N ik rk)).1.edges = []) := by
  obtain ⟨hS, hc1, hpre, herr⟩ := generate_subgraph_inv o C N ik rk
  refine ⟨herr hmm, hc1, ?_, ?_, ?_⟩
  · intro nd hnd
    exact (hS.node_ok nd hnd).1
  · have := hpre.length_le
    simpa using this
  · intro h0
    rw [generate_subgraph_depth_nonpos o C (by omega) N ik rk]
    exact ⟨rfl, rfl⟩

/-- Witness for `C5_single_top_bounded_depth` on a concrete run. -/
theorem C5_single_top_bounded_depth_witness :
    count_node_type (generate_subgraph oracle0 config11 (reset 0 0 0)).1.nodes 0
      = 1 :=
  (C5_single_top_bounded_depth oracle0 config11 0 0 0 (by decide)).2.1

/-- C6: every completed generated graph has exactly `num_nodes − 1` edges
(one child→parent edge per non-root node), every non-root node has
out-degree exactly 1, the root has out-degree 0, and the per-node
out-degrees and in-degrees recorded by `calculate_in_and_out_degrees` each
sum to the edge count. -/
theorem C6_edge_structure (o : Oracle) (C : Config) (N ik rk : ℕ)
    (hmm : C.min_children ≤ C.max_num_children) :
    (generate_subgraph o C (reset N ik rk)).2 = none ∧
    (generate_subgraph o C (reset N ik rk)).1.edges.length + 1
      = (generate_subgraph o C (reset N ik rk)).1.nodes.length ∧
    (∀ nd ∈ (generate_subgraph o C (reset N ik rk)).1.nodes, nd.node_type ≠ 0 →
      out_degree (generate_subgraph o C (reset N ik rk)).1 nd.id = 1) ∧
    (∀ nd ∈ (generate_subgraph o C (reset N ik rk)).1.nodes, nd.node_type = 0 →
      out_degree (generate_subgraph o C (reset N ik rk)).1 nd.id = 0) ∧
    ((calculate_in_and_out_degrees (generate_subgraph o C (reset N ik rk)).1).map
        (fun x => x.2.2)).sum
      = (generate_subgraph o C (reset N ik rk)).1.edges.length ∧
    ((calculate_in_and_out_degrees (generate_subgraph o C (reset N ik rk)).1).map
        (fun x => x.2.1)).sum
      = (generate_subgraph o C (reset N ik rk)).1.edges.length := by
  obtain ⟨hS, hc1, hpre, herr⟩ := generate_subgraph_inv o C N ik rk
  obtain ⟨h1, h2, h3, h4, h5⟩ := degrees_of_stateOK hS hc1
  refine ⟨herr hmm, h1, h2, h3, ?_, ?_⟩
  · have hform : (calculate_in_and_out_degrees
          (generate_subgraph o C (reset N ik rk)).1).map (fun x => x.2.2)
        = (generate_subgraph o C (reset N ik rk)).1.nodes.map
            (fun nd => out_degree (generate_subgraph o C (reset N ik rk)).1 nd.id) := by
      rw [calculate_in_and_out_degrees, List.map_map]
      rfl
    rw [hform]
    exact h4
  · have hform : (calculate_in_and_out_degrees
          (generate_subgraph o C (reset N ik rk)).1).map (fun x => x.2.1)
        = (generate_subgraph o C (reset N ik rk)).1.nodes.map
            (fun nd => in_degree (generate_subgraph o C (reset N ik rk)).1 nd.id) := by
      rw [calculate_in_and_out_degrees, List.map_map]
      rfl
    rw [hform]
    exact h5

/-- Witness for `C6_edge_structure` on a concrete run. -/
theorem C6_edge_structure_witness :
    (generate_subgraph oracle0 config11 (reset 0 0 0)).1.edges.length + 1
      = (generate_subgraph oracle0 config11 (reset 0 0 0)).1.nodes.length :=
  (C6_edge_structure oracle0 config11 0 0 0 (by decide)).2.1

/-- C8 counterexample: `u = 0` is a legitimate draw of
`random.uniform(0, 1)`, and on it the generated LEAF stores probability
`0^10 = 0`, which does not lie in the open interval `(0, 1)` — refuting
"the stored node_probability … lies strictly in the open interval (0,1)". -/
theorem C8_zero_probability_leaf :
    (∃ nd ∈ (generate_subgraph oracle0 config11 (reset 0 0 0)).1.nodes,
      nd.node_type = 2 ∧ nd.node_probability = 0) ∧
    biased_random_low_number 0 = 0 ∧ ¬ (0 < (0 : ℚ)) := by
  refine ⟨by decide, by decide, by decide⟩

/-- C8 amended: the sampler returns `u ^ 10` for the uniform draw
`u ∈ [0, 1)`; the value lies in the half-open interval `[0, 1)` and is `0`
exactly when `u = 0`; every LEAF node stores such a sampled value (in
`[0, 1)` for a valid oracle), and every non-leaf stores the sentinel −1. -/
theorem C8_leaf_probability_range (o : Oracle) (C : Config) (N ik rk : ℕ)
    (ho : o.valid) :
    (∀ u : ℚ, 0 ≤ u → u < 1 →
      biased_random_low_number u = u ^ 10 ∧
      0 ≤ biased_random_low_number u ∧ biased_random_low_number u < 1 ∧
      (biased_random_low_number u = 0 ↔ u = 0)) ∧
    (∀ nd ∈ (generate_subgraph o C (reset N ik rk)).1.nodes,
      (nd.node_type = 2 → 0 ≤ nd.node_probability ∧ nd.node_probability < 1 ∧
        ∃ k, nd.node_probability = biased_random_low_number (o.reals k)) ∧
      (nd.node_type ≠ 2 → nd.node_probability = -1)) := by
  have hrange : ∀ u : ℚ, 0 ≤ u → u < 1 →
      0 ≤ biased_random_low_number u ∧ biased_random_low_number u < 1 := by
    intro u h0 h1
    unfold biased_random_low_number
    exact ⟨pow_nonneg h0 10, pow_lt_one₀ h0 h1 (by norm_num)⟩
  constructor
  · intro u h0 h1
    refine ⟨rfl, (hrange u h0 h1).1, (hrange u h0 h1).2, ?_⟩
    unfold biased_random_low_number
    rw [pow_eq_zero_iff (by norm_num : (10 : ℕ) ≠ 0)]
  · intro nd hnd
    obtain ⟨hS, _, _, _⟩ := generate_subgraph_inv o C N ik rk
    obtain ⟨_, hleaf, hnonleaf⟩ := hS.node_ok nd hnd
    refine ⟨?_, hnonleaf⟩
    intro h2
    obtain ⟨k, hk⟩ := hleaf h2
    obtain ⟨hk0, hk1⟩ := ho k
    rw [hk]
    exact ⟨(hrange _ hk0 hk1).1, (hrange _ hk0 hk1).2, k, rfl⟩

/-- Witness for `C8_leaf_probability_range` at a concrete valid oracle. -/
theorem C8_leaf_probability_range_witness :
    0 ≤ biased_random_low_number (1/2 : ℚ) ∧
      biased_random_low_number (1/2 : ℚ) < 1 :=
  have h := (C8_leaf_probability_range ⟨fun _ => 0, fun _ => 1/2⟩ config11 0 0 0
    (fun _ => by norm_num)).1 (1/2) (by norm_num) (by norm_num)
  ⟨h.2.1, h.2.2.1⟩

/-- C10: `create_tree` (hence `generate_subgraph`) never raises the
division-by-zero error, for every configuration — including `max_depth = 0`
and `max_depth = 1` — because the division `current_depth / max_depth` is
only reached when `current_depth < max_depth` and
`current_depth ≠ max_depth - 1`, which forces `max_depth ≥ 2`. -/
theorem C10_division_safe (o : Oracle) (C : Config) :
    (∀ (fuel parent d : ℕ) (s : GenState),
      (create_tree o C fuel parent d s).2 ≠ some GenError.divByZero) ∧
    (∀ s : GenState, (generate_subgraph o C s).2 ≠ some GenError.divByZero) ∧
    (∀ (d : ℕ) (D : ℤ), (d : ℤ) < D → (d : ℤ) ≠ D - 1 → 2 ≤ D) :=
  ⟨fun fuel parent d s => create_tree_no_div fuel parent d s,
   fun s => create_tree_no_div C.max_depth.toNat (create_node o 0 none 0 s).1 0
     (create_node o 0 none 0 s).2,
   fun d D h1 h2 => division_guard_implies_two d D h1 h2⟩

/-- Witness for `C10_division_safe` (its final conjunct carries
hypotheses) at a concrete instance. -/
theorem C10_division_safe_witness :
    (generate_subgraph oracle0 config11 (reset 0 0 0)).2
      ≠ some GenError.divByZero ∧ (2 : ℤ) ≤ 2 :=
  ⟨(C10_division_safe oracle0 config11).2.1 (reset 0 0 0),
   (C10_division_safe oracle0 config11).2.2 0 2 (by decide) (by decide)⟩

/-- `max_num_children = 3`, `min_children = 2`, `max_depth = 2`. -/
def config322 : Config := ⟨3, 2, 2⟩

/-- C3: in every `create_tree` call below the depth cap — (i) the fan-out
value lies in the inclusive range `[min_children, max_num_children]` and
every value of that range is attainable by some raw draw; (ii) the parent
receives exactly that many direct children (edges pointing at it);
(iii) at `current_depth = max_depth - 1` every created node is a LEAF;
(iv) otherwise the first child is INTERMEDIATE exactly when its own fresh
uniform draw `r` satisfies `r < 1 - current_depth / max_depth` (each child
decision consuming its own draw). -/
theorem C3_fanout_and_child_type (o : Oracle) (C : Config)
    (hmm : C.min_children ≤ C.max_num_children) :
    (∀ raw, C.min_children ≤ randint C.min_children C.max_num_children raw ∧
      randint C.min_children C.max_num_children raw ≤ C.max_num_children) ∧
    (∀ v, C.min_children ≤ v → v ≤ C.max_num_children →
      randint C.min_children C.max_num_children (v - C.min_children) = v) ∧
    (∀ (fuel parent d : ℕ) (s : GenState), ¬ (d : ℤ) ≥ C.max_depth →
      parent ≤ s.node_counter →
      in_degree (create_tree o C (fuel + 1) parent d s).1 parent
        = in_degree s parent
          + randint C.min_children C.max_num_children (o.ints s.ik)) ∧
    (∀ (fuel parent d : ℕ) (s : GenState), (d : ℤ) = C.max_depth - 1 →
      ∀ nd ∈ (create_tree o C fuel parent d s).1.nodes,
        nd ∈ s.nodes ∨ nd.node_type = 2) ∧
    (∀ (fuel parent d : ℕ) (s : GenState), ¬ (d : ℤ) ≥ C.max_depth →
      ¬ (d : ℤ) = C.max_depth - 1 → 1 ≤ C.min_children →
      ∃ nd : Node,
        (create_tree o C (fuel + 1) parent d s).1.nodes[s.nodes.length]?
          = some nd ∧
        nd.node_type
          = (if o.reals s.rk < 1 - (d : ℚ) / (C.max_depth : ℚ) then 1 else 2)) := by
  refine ⟨fun raw => randint_mem _ _ raw hmm,
    fun v h1 h2 => randint_surj _ _ v h1 h2,
    fun fuel parent d s hd hp => create_tree_direct_children hmm fuel parent d s hd hp,
    fun fuel parent d s hfl => create_tree_forced_leaf hfl fuel parent s,
    ?_⟩
  intro fuel parent d s hd hfl hmin
  obtain ⟨nd, h1, h2, _, _⟩ :=
    create_tree_first_child fuel parent d s hd hfl hmin hmm
  exact ⟨nd, h1, h2⟩

/-- Witness for `C3_fanout_and_child_type` at concrete inputs. -/
theorem C3_fanout_and_child_type_witness :
    (2 ≤ randint 2 3 5 ∧ randint 2 3 5 ≤ 3) ∧
    randint 2 3 (3 - 2) = 3 ∧
    in_degree (create_tree oracle0 config322 1 1 0 (reset 1 0 0)).1 1
      = in_degree (reset 1 0 0) 1 + randint 2 3 (oracle0.ints (reset 1 0 0).ik) ∧
    (∀ nd ∈ (create_tree oracle0 config11 1 1 0 (reset 1 0 0)).1.nodes,
      nd ∈ (reset 1 0 0).nodes ∨ nd.node_type = 2) ∧
    (∃ nd : Node,
      (create_tree oracle0 config322 1 1 0
        (reset 1 0 0)).1.nodes[(reset 1 0 0).nodes.length]? = some nd ∧
      nd.node_type
        = (if oracle0.reals (reset 1 0 0).rk
            < 1 - ((0 : ℕ) : ℚ) / ((config322.max_depth : ℚ)) then 1 else 2)) :=
  have h := C3_fanout_and_child_type oracle0 config322 (by decide)
  have hf := C3_fanout_and_child_type oracle0 config11 (by decide)
  ⟨h.1 5, h.2.1 3 (by decide) (by decide),
   h.2.2.1 0 1 0 (reset 1 0 0) (by decide) (by decide),
   hf.2.2.2.1 1 1 0 (reset 1 0 0) (by decide),
   h.2.2.2.2 0 1 0 (reset 1 0 0) (by decide) (by decide) (by decide)⟩

/-- C7: for every run of `num_graphs` graphs whose persisted counter starts
at `N` (and any oracle, under a valid children range), the node ids of all
graphs in creation order are exactly the consecutive integers
`N+1, …, N+total` (no gaps, no repeats, strictly increasing), the counter
persisted at the end is `N + total`, and every graph completed without
error. -/
theorem C7_consecutive_ids (o : Oracle) (C : Config) (g N ik rk : ℕ)
    (hmm : C.min_children ≤ C.max_num_children) :
    ((run o C g N ik rk).1.map (fun p => p.1.map Node.id)).flatten
      = List.range' (N + 1)
          (((run o C g N ik rk).1.map (fun p => p.1.length)).sum) ∧
    (run o C g N ik rk).2
      = N + ((run o C g N ik rk).1.map (fun p => p.1.length)).sum ∧
    (∀ p ∈ (run o C g N ik rk).1, p.2 = none) := by
  obtain ⟨h1, h2, h3⟩ := run_inv o C g N ik rk
  exact ⟨h1, h2, h3 hmm⟩

/-- Witness for `C7_consecutive_ids`: a concrete two-graph run starting at
counter 3. -/
theorem C7_consecutive_ids_witness :
    ((run oracle0 config11 2 3 0 0).1.map (fun p => p.1.map Node.id)).flatten
      = List.range' (3 + 1)
          (((run oracle0 config11 2 3 0 0).1.map (fun p => p.1.length)).sum) :=
  (C7_consecutive_ids oracle0 config11 2 3 0 0 (by decide)).1

/-- C9: a missing counters file materialises the defaults
`num_models = 0, num_nodes = 0`; a malformed pair anywhere in the file is
skipped while all other pairs are still read (shown both in general, for
any split containing a bad pair, and on a concrete corrupted file). -/
theorem C9_defaults_and_skip_malformed :
    read_data_config none = [("num_models".data, 0), ("num_nodes".data, 0)] ∧
    (∀ (c : List Char) (l₁ l₂ : List (List Char)) (m : List Char),
      splitOnChar ';' (stripChars c) = l₁ ++ m :: l₂ →
      parsePair m = none →
      read_data_config (some c) = (l₁ ++ l₂).filterMap parsePair) ∧
    read_data_config (some "num_models=3;oops;num_nodes=7".data)
      = [("num_models".data, 3), ("num_nodes".data, 7)] := by
  refine ⟨rfl, ?_, by decide⟩
  intro c l₁ l₂ m hsplit hm
  show (splitOnChar ';' (stripChars c)).filterMap parsePair = _
  rw [hsplit, List.filterMap_append, List.filterMap_cons_none hm,
    List.filterMap_append]

/-- Witness for `C9_defaults_and_skip_malformed` on the concrete corrupted
file contents. -/
theorem C9_defaults_and_skip_malformed_witness :
    read_data_config (some "num_models=3;oops;num_nodes=7".data)
      = ([("num_models=3".data), ("num_nodes=7".data)]).filterMap parsePair :=
  (C9_defaults_and_skip_malformed).2.1 "num_models=3;oops;num_nodes=7".data
    ["num_models=3".data] ["num_nodes=7".data] "oops".data (by decide) (by decide)

end FaultTree
